import Mathlib

/-!
Verification development for the mutable N-gram trie (`ngram_trie.c`).

The C source is shallowly embedded: trie nodes become an inductive tree,
the successor arrays become sorted `List`s of child nodes, machine integers
become `Int` (stored log values are small and never overflow in the runs
considered here), `NULL` results become `Option`, and the external
dictionary / log-math collaborators (excluded from the source, specified in
the spec's interface section) are given small executable models, marked
`Modelled from the spec:` in their doc comments.
-/

set_option maxHeartbeats 1000000

namespace NgramTrie

/-- Modelled from the spec: the dictionary/vocabulary service (external
collaborator, not part of the repository source).  It "maps word strings to
dense integer IDs and back; supports dynamic word insertion".  IDs are
assigned densely in insertion order, so the word list itself is the state. -/
structure Dict where
  words : List String
deriving DecidableEq

/-- The C `BAD_S3WID` sentinel returned by `dict_wordid` on lookup failure. -/
def BAD_S3WID : Int := -1

/-- Modelled from the spec: `word_id(string) -> id | not_found`
(`dict_wordid`); returns `BAD_S3WID` when the string is not in the
dictionary. -/
def Dict.wordid (d : Dict) (s : String) : Int :=
  match d.words.findIdx? (· == s) with
  | some i => (i : Int)
  | none => BAD_S3WID

/-- Modelled from the spec: `id_to_string(id) -> string` (`dict_wordstr`). -/
def Dict.wordstr (d : Dict) (w : Int) : String :=
  if w < 0 then "" else d.words.getD w.toNat ""

/-- Modelled from the spec: `add_word(string) -> id` (`dict_add_word`),
only permitted on a growable/private dictionary; the new ID is the next
dense index. -/
def Dict.add_word (d : Dict) (s : String) : Dict × Int :=
  ({ words := d.words ++ [s] }, (d.words.length : Int))

/-- One trie node (`struct ngram_trie_node_s`): word ID, quantized
log-probability, quantized log-backoff-weight, and the ordered successor
array.  The C `history` parent back-pointer is represented implicitly by the
tree structure (paths from the root). -/
inductive NTNode : Type where
  | mk (word : Int) (log_prob : Int) (log_bowt : Int) (successors : List NTNode)

def NTNode.word : NTNode → Int
  | .mk w _ _ _ => w

def NTNode.log_prob : NTNode → Int
  | .mk _ p _ _ => p

def NTNode.log_bowt : NTNode → Int
  | .mk _ _ b _ => b

def NTNode.successors : NTNode → List NTNode
  | .mk _ _ _ s => s

/-- Replace a node's successor array (the in-place `garray` mutation). -/
def NTNode.withSuccessors : NTNode → List NTNode → NTNode
  | .mk w p b _, s => .mk w p b s

/-- `node->log_prob = v` assignment. -/
def NTNode.setProb : NTNode → Int → NTNode
  | .mk w _ b s, p => .mk w p b s

/-- `node->log_bowt = v` assignment. -/
def NTNode.setBowt : NTNode → Int → NTNode
  | .mk w p _ s, b => .mk w p b s

/-- `ngram_trie_node_alloc`: fresh node with `word = -1`, zero log values
and an empty successor array. -/
def ngram_trie_node_alloc : NTNode := .mk (-1) 0 0 []

/-- The trie (`struct ngram_trie_s`).  `lmath` is the log-math service
handle, modelled from the spec as a function from probabilities (rationals,
standing for the C doubles) to fixed-point log-domain integers. -/
structure Trie where
  refcount : Int
  dict : Dict
  gendict : Bool
  lmath : Rat → Int
  shift : Nat
  zero : Int
  n : Int
  root : NTNode

/-- Arithmetic left shift `x << k` on C `int` (no overflow in modelled runs). -/
def asl (x : Int) (k : Nat) : Int := x * 2 ^ k

/-- Arithmetic right shift `x >> k` on C `int` (rounds toward `-∞`). -/
def asr (x : Int) (k : Nat) : Int := Int.fdiv x (2 ^ k)

/-- `ngram_trie_retain`: increment the reference count. -/
def ngram_trie_retain (t : Trie) : Trie := { t with refcount := t.refcount + 1 }

/-- `ngram_trie_free`: `NULL` argument returns 0; otherwise decrement the
reference count and only free (drop) the trie when it reaches zero. -/
def ngram_trie_free : Option Trie → Int × Option Trie
  | none => (0, none)
  | some t =>
    let rc := t.refcount - 1
    if rc > 0 then (rc, some { t with refcount := rc })
    else (0, none)

/-- Lexicographic strict comparison of character lists: the `strcmp(a,b) < 0`
test used by `ngram_trie_nodeptr_cmp` (ASCII surface forms, compared
byte-by-byte; a proper prefix sorts first). -/
def charsLt : List Char → List Char → Bool
  | [], [] => false
  | [], _ :: _ => true
  | _ :: _, [] => false
  | a :: as, b :: bs => if a < b then true else if b < a then false else charsLt as bs

/-- `strcmp(a, b) < 0` on surface strings. -/
def strLt (a b : String) : Bool := charsLt a.data b.data

/-- Modelled from the spec: `garray_bisect_left` on a successor array whose
comparison key is the surface string of each child's word
(`ngram_trie_nodeptr_cmp`): "binary search returning the insertion point
(leftmost position where a node with this word would belong)".  On arrays
that are sorted by surface form — the invariant the code maintains — this is
the number of leading children whose surface form is strictly below the key. -/
def bisect_left (d : Dict) (key : String) : List NTNode → Nat
  | [] => 0
  | c :: rest => if strLt (d.wordstr c.word) key then bisect_left d key rest + 1 else 0

/-- Modelled from the spec: `garray_bisect_right`, the rightmost insertion
point consistent with the sort order. -/
def bisect_right (d : Dict) (key : String) : List NTNode → Nat
  | [] => 0
  | c :: rest => if strLt key (d.wordstr c.word) then 0 else bisect_right d key rest + 1

/-- `ngram_trie_successor_pos`: bisect the successor array of `h` for a
stack node carrying word `w` (only the word field takes part in the
comparison).  The C function takes the trie; only its dictionary is used by
the comparison. -/
def ngram_trie_successor_pos (d : Dict) (h : NTNode) (w : Int) : Nat :=
  bisect_left d (d.wordstr w) h.successors

/-- `ngram_trie_successor`: bisect, return `NULL` if the position is past
the end, otherwise return the child at the position.  (As in the source: the
word at the returned position is not compared against `w`.) -/
def ngram_trie_successor (d : Dict) (h : NTNode) (w : Int) : Option NTNode :=
  let pos := ngram_trie_successor_pos d h w
  if pos ≥ h.successors.length then none
  else h.successors[pos]?

/-- `ngram_trie_delete_successor`: bisect; position past the end means
not-found status `-1`; otherwise free the node at the position and delete
that array slot, status `0`.  Returns the updated parent with the status. -/
def ngram_trie_delete_successor (d : Dict) (h : NTNode) (w : Int) : NTNode × Int :=
  let pos := ngram_trie_successor_pos d h w
  if pos ≥ h.successors.length then (h, -1)
  else (h.withSuccessors (h.successors.eraseIdx pos), 0)

/-- `ngram_trie_add_successor`: allocate a node for `w`, bisect-right the
parent's successor array, append when the position is the end and insert at
the position otherwise.  Returns the updated parent (the C function returns
the new child; its parent pointer is the tree edge created here). -/
def ngram_trie_add_successor (d : Dict) (h : NTNode) (w : Int) : NTNode :=
  let ng : NTNode := .mk w 0 0 []
  let pos := bisect_right d (d.wordstr w) h.successors
  if pos = h.successors.length then h.withSuccessors (h.successors ++ [ng])
  else h.withSuccessors (h.successors.insertIdx pos ng)

lemma sizeOf_successors_lt (node : NTNode) : sizeOf node.successors < sizeOf node := by
  cases node with
  | mk w p b s => simp [NTNode.successors]

lemma sizeOf_lt_of_mem_successors {c node : NTNode} (h : c ∈ node.successors) :
    sizeOf c < sizeOf node :=
  lt_trans (List.sizeOf_lt_of_mem h) (sizeOf_successors_lt node)

lemma mem_of_successor_eq_some {d : Dict} {node c : NTNode} {wid : Int}
    (h : ngram_trie_successor d node wid = some c) : c ∈ node.successors := by
  unfold ngram_trie_successor at h
  by_cases hp : ngram_trie_successor_pos d node wid ≥ node.successors.length
  · simp [hp] at h
  · simp [hp] at h
    obtain ⟨hi, rfl⟩ := List.getElem?_eq_some.mp h
    exact List.getElem_mem hi

/-- The body of the history-descent loop in `ngram_trie_ngram_v`.  The C
loop `while (n_hist > 0)` never decrements `n_hist`, so every iteration
looks up the same history word one level deeper (`node = successor(node,
wid)`); the only exit from the loop is the `return NULL` taken when a lookup
fails. -/
def descendSame (d : Dict) (node : NTNode) (wid : Int) : Option NTNode :=
  match h : ngram_trie_successor d node wid with
  | none => none
  | some c => descendSame d c wid
termination_by sizeOf node
decreasing_by
  exact sizeOf_lt_of_mem_successors (mem_of_successor_eq_some h)

/-- `ngram_trie_ngram_v`: truncate the history length to `order - 1`, run
the descent loop when it is positive (which, as in the source, can only end
in `NULL`), and otherwise look up `w` under the root. -/
def ngram_trie_ngram_v (t : Trie) (w : Int) (hist : List Int) (n_hist : Int) :
    Option NTNode :=
  let nh := if n_hist > t.n - 1 then t.n - 1 else n_hist
  if nh > 0 then descendSame t.dict t.root (hist.getD (nh.toNat - 1) 0)
  else ngram_trie_successor t.dict t.root w

/-- `ngram_trie_bowt_v`: return the stored (un-shifted) backoff weight when
the exact node is found; otherwise recurse with the head history word
promoted to the looked-up word (`bowt_v(hist[0], hist + 1, n_hist - 1)`);
weight 0 once the history is exhausted. -/
def ngram_trie_bowt_v (t : Trie) (w : Int) (hist : List Int) (n_hist : Int) : Int :=
  match ngram_trie_ngram_v t w hist n_hist with
  | some ng => asl ng.log_bowt t.shift
  | none =>
    if h : n_hist > 0 then
      ngram_trie_bowt_v t (hist.getD 0 0) (hist.drop 1) (n_hist - 1)
    else 0
termination_by n_hist.toNat
decreasing_by omega

/-- `ngram_trie_prob_v`, returning the pair (probability, final value of the
`n_used` out-parameter).  The C function writes `*n_used = n_hist + 1` on
entry; on the backoff path it decrements `*n_used` and the recursive call
overwrites it, so the observable final value is the recursive call's; the
empty-history miss writes `0`. -/
def ngram_trie_prob_v (t : Trie) (w : Int) (hist : List Int) (n_hist : Int) :
    Int × Int :=
  match ngram_trie_ngram_v t w hist n_hist with
  | some ng => (asl ng.log_prob t.shift, n_hist + 1)
  | none =>
    if h : n_hist > 0 then
      let bp := ngram_trie_prob_v t w hist (n_hist - 1)
      let pong := ngram_trie_bowt_v t (hist.getD 0 0) (hist.drop 1) (n_hist - 1)
      (bp.1 + pong, bp.2)
    else (asl t.zero t.shift, 0)
termination_by n_hist.toNat
decreasing_by omega

/-- Whether some level of the backoff recursion of `ngram_trie_prob_v`
finds a node (helper for reasoning about the final `n_used` value). -/
def prob_found (t : Trie) (w : Int) (hist : List Int) (n_hist : Int) : Bool :=
  match ngram_trie_ngram_v t w hist n_hist with
  | some _ => true
  | none => if h : n_hist > 0 then prob_found t w hist (n_hist - 1) else false
termination_by n_hist.toNat
decreasing_by omega

/-- The number of backoff steps `ngram_trie_prob_v` takes before stopping
(helper for reasoning about the final `n_used` value). -/
def prob_steps (t : Trie) (w : Int) (hist : List Int) (n_hist : Int) : Nat :=
  match ngram_trie_ngram_v t w hist n_hist with
  | some _ => 0
  | none => if h : n_hist > 0 then prob_steps t w hist (n_hist - 1) + 1 else 0
termination_by n_hist.toNat
decreasing_by omega

/-- Modelled from the spec: exact successor lookup — "binary search …
check resulting position denotes an exact match": the child whose word has
the key's surface form, or not-found. -/
def successor_spec (d : Dict) (h : NTNode) (w : Int) : Option NTNode :=
  h.successors.find? (fun c => d.wordstr c.word == d.wordstr w)

/-- Modelled from the spec: `lookup_path(word, history_words_newest_first)`
"walks from root, consuming history words oldest-available-first up to
`order-1` entries (truncating the supplied history if longer), descending
one successor-lookup per word", then looks up the word itself. -/
def ngram_v_spec (t : Trie) (w : Int) (hist : List Int) (n_hist : Nat) : Option NTNode :=
  let nh := min n_hist (t.n - 1).toNat
  let rec walk : NTNode → List Int → Option NTNode
    | node, [] => successor_spec t.dict node w
    | node, x :: rest =>
      match successor_spec t.dict node x with
      | none => none
      | some c => walk c rest
  walk t.root (hist.take nh).reverse

/-- Modelled from the spec: "`backoff_weight(history)` itself recurses by
dropping the oldest history word until a matching node is found or history
is exhausted (in which case the weight is 0)". -/
def bowt_v_spec (t : Trie) (w : Int) (hist : List Int) : Nat → Int
  | 0 =>
    match ngram_v_spec t w hist 0 with
    | some ng => asl ng.log_bowt t.shift
    | none => 0
  | k + 1 =>
    match ngram_v_spec t w hist (k + 1) with
    | some ng => asl ng.log_bowt t.shift
    | none => bowt_v_spec t w hist k

/-- The descent loop of `ngram_trie_ngram_v` can only exit through its
`return NULL`: it never terminates with a node, whatever the trie contents. -/
theorem descendSame_eq_none (d : Dict) (node : NTNode) (wid : Int) :
    descendSame d node wid = none := by
  generalize hk : sizeOf node = k
  induction k using Nat.strong_induction_on generalizing node with
  | _ k ih =>
    rw [descendSame]
    split
    · rfl
    · next c hc =>
      exact ih (sizeOf c) (hk ▸ sizeOf_lt_of_mem_successors (mem_of_successor_eq_some hc)) c rfl

lemma ngram_v_none_of_pos_nh (t : Trie) (w : Int) (hist : List Int) (n_hist : Int)
    (hnh : 0 < (if n_hist > t.n - 1 then t.n - 1 else n_hist)) :
    ngram_trie_ngram_v t w hist n_hist = none := by
  simp only [ngram_trie_ngram_v]
  rw [if_pos hnh]
  exact descendSame_eq_none _ _ _

/-- A two-word dictionary for the successor-array scenarios: `a` has ID 0,
`b` has ID 1. -/
def d2 : Dict := ⟨["a", "b"]⟩

/-- A parent node whose only child carries word `b` (ID 1). -/
def h2 : NTNode := .mk (-1) 0 0 [.mk 1 0 0 []]

/-- Order-2 scenario for the path lookup: unigram `a` (ID 0) with the
bigram child `b` (ID 1), plus the unigram `b` under the root. -/
def b1node : NTNode := .mk 1 (-5) 0 []

def a1node : NTNode := .mk 0 (-10) 0 [b1node]

def t1 : Trie :=
  { refcount := 1, dict := d2, gendict := true, lmath := fun _ => -100000,
    shift := 0, zero := -100000, n := 2,
    root := .mk (-1) 0 0 [a1node, .mk 1 (-20) 0 []] }

/-- Scenario A of the spec, as the loader builds it: dictionary
`<unk>`(ID 0), `a`(ID 1), `b`(ID 2); unigram nodes under the root in
surface order with stored quantized log-probabilities standing for
quantized(-3.0), quantized(-1.0), quantized(-2.0); the single bigram
`a b` child of the `a` node storing quantized(-0.5) = -5; all backoff
weights the quantized default 0.0 = 0; `shift = 0`. -/
def d6 : Dict := ⟨["<unk>", "a", "b"]⟩

def big6 : NTNode := .mk 2 (-5) 0 []

def unk6 : NTNode := .mk 0 (-30) 0 []

def a6 : NTNode := .mk 1 (-10) 0 [big6]

def b6 : NTNode := .mk 2 (-20) 0 []

def t6 : Trie :=
  { refcount := 1, dict := d6, gendict := false, lmath := fun _ => -100000,
    shift := 0, zero := -100000, n := 2,
    root := .mk (-1) 0 0 [unk6, a6, b6] }

/-- Order-3 trie for the backoff-weight recursion: three unigrams with
distinct stored backoff weights and no higher-order nodes. -/
def d7 : Dict := ⟨["a", "b", "c"]⟩

def a7 : NTNode := .mk 0 0 (-70) []

def b7 : NTNode := .mk 1 0 (-80) []

def c7 : NTNode := .mk 2 0 (-90) []

def t7 : Trie :=
  { refcount := 1, dict := d7, gendict := false, lmath := fun _ => -100000,
    shift := 0, zero := -100000, n := 3,
    root := .mk (-1) 0 0 [a7, b7, c7] }

/-- C1: the claim says the path lookup `ngram_trie_ngram_v` terminates with
the history length strictly decreasing toward the empty-history base case.
The code never decrements `n_hist` inside its descent loop: whenever the
truncated history length is positive the loop re-looks-up the same word at
every level and can only exit through its `return NULL`, so every lookup
with non-empty effective history returns none — including the existing
bigram `b` after history `a` in `t1`, whose node is demonstrably present. -/
theorem C1_ngram_v_history_never_consumed :
    (∀ (t : Trie) (w : Int) (hist : List Int) (n_hist : Int),
        0 < (if n_hist > t.n - 1 then t.n - 1 else n_hist) →
        ngram_trie_ngram_v t w hist n_hist = none)
    ∧ ngram_trie_ngram_v t1 1 [0] 1 = none
    ∧ ngram_trie_successor t1.dict a1node 1 = some b1node := by
  refine ⟨ngram_v_none_of_pos_nh, ngram_v_none_of_pos_nh t1 1 [0] 1 (by decide), ?_⟩
  rfl

/-- C1 witness: the universally quantified part instantiated at the
concrete order-2 trie. -/
theorem C1_witness : ngram_trie_ngram_v t1 1 [0] 1 = none :=
  C1_ngram_v_history_never_consumed.1 t1 1 [0] 1 (by decide)

/-- C2: the claim says `ngram_trie_successor` returns a node iff a child
with exactly word `w` exists, and null otherwise — never some other child.
The code omits the exact-match check after the bisect: looking up word
`a` (ID 0) under a parent whose only child is `b` (ID 1) returns the `b`
child, although no child carries word 0. -/
theorem C2_successor_returns_wrong_child :
    ngram_trie_successor d2 h2 0 = some (.mk 1 0 0 [])
    ∧ h2.successors.all (fun c => c.word != 0) = true := by
  exact ⟨rfl, rfl⟩

/-- C4: the claim says deleting an absent word signals not-found and leaves
the successor array unchanged.  The code again omits the exact-match check:
deleting word `a` (ID 0) under a parent whose only child is `b` (ID 1)
returns success status 0 and removes the `b` child. -/
theorem C4_delete_removes_wrong_child :
    ngram_trie_delete_successor d2 h2 0 = (.mk (-1) 0 0 [], 0)
    ∧ h2.successors.all (fun c => c.word != 0) = true
    ∧ h2.successors.length = 1 := by
  exact ⟨rfl, rfl, rfl⟩

/-- C6: the claim says that on scenario A, `probability("b", ["a"])`
returns the quantized form of -0.5 stored on the bigram node (-5 here).
Because the path lookup never consumes history (C1), the bigram node is
unreachable: the query falls back and returns the unigram `b` probability
plus the `a` backoff weight, -20 + 0, although the bigram node with stored
value -5 is present under `a`. -/
theorem C6_scenarioA_probability_wrong :
    ngram_trie_prob_v t6 2 [1] 1 = (-20, 1)
    ∧ ngram_trie_successor t6.dict a6 2 = some big6
    ∧ big6.log_prob = -5
    ∧ (-20 : Int) ≠ -5 := by
  refine ⟨?_, rfl, rfl, by norm_num⟩
  have h1 : ngram_trie_ngram_v t6 2 [1] 1 = none :=
    ngram_v_none_of_pos_nh t6 2 [1] 1 (by decide)
  have h0 : ngram_trie_ngram_v t6 2 [1] 0 = some b6 := rfl
  have ha : ngram_trie_ngram_v t6 1 [] 0 = some a6 := rfl
  rw [ngram_trie_prob_v, h1]
  norm_num
  rw [ngram_trie_prob_v]
  norm_num [h0]
  rw [ngram_trie_bowt_v]
  norm_num [ha]
  constructor

/-- C7: the claim says the backoff-weight recursion drops the oldest
history word at each step, ending at the newest word's unigram when nothing
longer matches.  The code instead promotes the head (newest) history word to
the looked-up word (`bowt_v(hist[0], hist+1, n-1)`), dropping the queried
word: on three unigrams with distinct weights and no longer N-grams, the
query for word `c` with history `[a, b]` (newest first) ends at unigram
`b`'s weight -80, while the spec-modelled drop-the-oldest recursion ends at
unigram `c`'s weight -90. -/
theorem C7_bowt_drops_newest_not_oldest :
    ngram_trie_bowt_v t7 2 [0, 1] 2 = -80
    ∧ bowt_v_spec t7 2 [0, 1] 2 = -90
    ∧ (-80 : Int) ≠ -90 := by
  refine ⟨?_, by decide, by norm_num⟩
  have h2' : ngram_trie_ngram_v t7 2 [0, 1] 2 = none :=
    ngram_v_none_of_pos_nh t7 2 [0, 1] 2 (by decide)
  have h1' : ngram_trie_ngram_v t7 0 [1] 1 = none :=
    ngram_v_none_of_pos_nh t7 0 [1] 1 (by decide)
  have h0' : ngram_trie_ngram_v t7 1 [] 0 = some b7 := rfl
  rw [ngram_trie_bowt_v, h2']
  norm_num
  rw [ngram_trie_bowt_v]
  norm_num [h1']
  rw [ngram_trie_bowt_v]
  norm_num [h0']
  rfl

/-- C8 counterexample: the claim says the reported `n_used` is at most the
supplied history length.  With an empty history and an existing unigram the
code reports `n_used = n_hist + 1 = 1 > 0`: the out-parameter counts the
predicted word as well, not only history words. -/
theorem C8_counterexample_n_used_exceeds_history :
    (ngram_trie_prob_v t6 2 [] 0).2 = 1
    ∧ ¬ ((ngram_trie_prob_v t6 2 [] 0).2 ≤ (0 : Int)) := by
  have h : ngram_trie_prob_v t6 2 [] 0 = (-20, 1) := by
    rw [ngram_trie_prob_v, show ngram_trie_ngram_v t6 2 [] 0 = some b6 from rfl]
    norm_num [b6, asl, t6, NTNode.log_prob]
  rw [h]
  norm_num

/-- C8 (amended): the final `n_used` value of `ngram_trie_prob_v` counts
the predicted word too: it is at most `n_hist + 1`; when some backoff level
finds a node it equals `n_hist + 1` minus the number of backoff steps taken
(so it decreases by exactly one per step), and when no level finds a node
it is 0. -/
theorem C8_n_used_counts_predicted_word (t : Trie) (w : Int) (hist : List Int) (n : Nat) :
    (ngram_trie_prob_v t w hist (n : Int)).2 ≤ (n : Int) + 1
    ∧ (prob_found t w hist (n : Int) = true →
        (ngram_trie_prob_v t w hist (n : Int)).2 + (prob_steps t w hist (n : Int) : Int)
          = (n : Int) + 1)
    ∧ (prob_found t w hist (n : Int) = false →
        (ngram_trie_prob_v t w hist (n : Int)).2 = 0) := by
  induction n with
  | zero =>
    simp only [Nat.cast_zero]
    cases hng : ngram_trie_ngram_v t w hist 0 with
    | some ng =>
      rw [ngram_trie_prob_v, prob_found, prob_steps, hng]
      norm_num
    | none =>
      rw [ngram_trie_prob_v, prob_found, prob_steps, hng]
      norm_num
  | succ k ih =>
    have hcast : ((k + 1 : Nat) : Int) - 1 = (k : Int) := by push_cast; ring
    cases hng : ngram_trie_ngram_v t w hist ((k + 1 : Nat) : Int) with
    | some ng =>
      rw [ngram_trie_prob_v, prob_found, prob_steps, hng]
      norm_num
    | none =>
      have hpos : ((k + 1 : Nat) : Int) > 0 := by positivity
      rw [ngram_trie_prob_v, prob_found, prob_steps, hng]
      simp only [dif_pos hpos, hcast]
      obtain ⟨ih1, ih2, ih3⟩ := ih
      refine ⟨by push_cast; omega, ?_, ?_⟩
      · intro hf
        have := ih2 hf
        push_cast at this ⊢
        omega
      · intro hf
        exact ih3 hf


/-- C8 witness: the amended claim instantiated at the scenario-A trie,
query `b` after history `[a]` (one backoff step is taken and the unigram
is found, so `n_used = 1 = 1 + 1 - 1`). -/
theorem C8_witness :
    (ngram_trie_prob_v t6 2 [1] ((1 : Nat) : Int)).2
      + (prob_steps t6 2 [1] ((1 : Nat) : Int) : Int) = ((1 : Nat) : Int) + 1 :=
  (C8_n_used_counts_predicted_word t6 2 [1] 1).2.1 (by
    have h1 : ngram_trie_ngram_v t6 2 [1] ((1 : Nat) : Int) = none :=
      ngram_v_none_of_pos_nh t6 2 [1] _ (by norm_num [t6])
    rw [prob_found, h1]
    norm_num
    rw [prob_found, show ngram_trie_ngram_v t6 2 [1] 0 = some b6 from rfl])

/-- Concrete trie with reference count 2 for the release/retain witness. -/
def t10 : Trie :=
  { refcount := 2, dict := d2, gendict := true, lmath := fun _ => 0,
    shift := 0, zero := 0, n := 1, root := ngram_trie_node_alloc }

/-- C10: `ngram_trie_free(NULL)` returns 0 and has no effect; when the
reference count exceeds 1, `ngram_trie_free` only decrements it and returns
the remaining positive count without freeing; hence
`ngram_trie_free(ngram_trie_retain(t))` leaves the trie and its count
exactly as before. -/
theorem C10_free_retain_refcount :
    ngram_trie_free none = (0, none)
    ∧ (∀ t : Trie, 1 < t.refcount →
        ngram_trie_free (some t)
          = (t.refcount - 1, some { t with refcount := t.refcount - 1 }))
    ∧ (∀ t : Trie, 0 < t.refcount →
        ngram_trie_free (some (ngram_trie_retain t)) = (t.refcount, some t)) := by
  refine ⟨rfl, ?_, ?_⟩
  · intro t ht
    simp [ngram_trie_free, show t.refcount - 1 > 0 by omega]
  · intro t ht
    have h : t.refcount + 1 - 1 = t.refcount := by ring
    simp [ngram_trie_free, ngram_trie_retain, h, show t.refcount > 0 from ht]

/-- C10 witness: the refcount clauses instantiated at a concrete trie with
reference count 2. -/
theorem C10_witness :
    ngram_trie_free (some t10)
      = (t10.refcount - 1, some { t10 with refcount := t10.refcount - 1 })
    ∧ ngram_trie_free (some (ngram_trie_retain t10)) = (t10.refcount, some t10) :=
  ⟨C10_free_retain_refcount.2.1 t10 (by norm_num [t10]),
   C10_free_retain_refcount.2.2 t10 (by norm_num [t10])⟩

/-- Node lookup along a path of successor-array indices from a root: the
pointer into the trie that a C iterator's `cur` field denotes. -/
def NTNode.getPath : NTNode → List Nat → Option NTNode
  | node, [] => some node
  | node, i :: rest =>
    match node.successors[i]? with
    | none => none
    | some c => c.getPath rest

/-- The node a path denotes (total version; paths in use are valid). -/
def curNode (root : NTNode) (path : List Nat) : NTNode :=
  (root.getPath path).getD root

/-- Iterator state (`struct ngram_trie_iter_s`): the current node `cur` is
identified by its index path from the root, `pos` is the position in
`cur->successors`, `nostop` is the continue-across-subtrees flag. -/
structure Iter where
  root : NTNode
  path : List Nat
  pos : Nat
  nostop : Bool

/-- The descent in `ngram_trie_ngrams`: from the root, take the position-0
child `n-1` times (the C reads `garray_ent(.., 0)` and checks the result;
an empty successor array means no first N-gram, hence `NULL`). -/
def firstPath : NTNode → Nat → Option (List Nat)
  | _, 0 => some []
  | node, k + 1 =>
    match node.successors[0]? with
    | none => none
    | some c =>
      match firstPath c k with
      | none => none
      | some p => some (0 :: p)

/-- `ngram_trie_ngrams`: find the first `(n-1)`-gram and build an iterator
over its children.  The comment in the source says "Create an iterator with
nostop=TRUE" but the assignment that follows is `itor->nostop = FALSE`,
transcribed here as written. -/
def ngram_trie_ngrams (t : Trie) (n : Int) : Option Iter :=
  match firstPath t.root (n - 1).toNat with
  | none => none
  | some p => some ⟨t.root, p, 0, false⟩

/-- `ngram_trie_successors`: bounded iterator over one node's children
(`nostop = FALSE`). -/
def ngram_trie_successors (h : NTNode) : Iter := ⟨h, [], 0, false⟩

/-- `ngram_trie_next_node`: locate the current node in its parent's
successor array (`garray_bisect_left`, asserted exact), step to the next
sibling, or recurse to the parent's next node and enter its first child. -/
def ngram_trie_next_node (d : Dict) (root : NTNode) : List Nat → Option (List Nat)
  | [] => none
  | x :: xs =>
    let p := x :: xs
    let parent := curNode root p.dropLast
    let ng := curNode root p
    let pos := bisect_left d (d.wordstr ng.word) parent.successors + 1
    if pos = parent.successors.length then
      match ngram_trie_next_node d root p.dropLast with
      | none => none
      | some hp => some (hp ++ [0])
    else some (p.dropLast ++ [pos])
termination_by p => p.length
decreasing_by simp

/-- `ngram_trie_iter_next`: advance `pos`; past the end of the current
successor array, either stop (`nostop = FALSE`, freeing the iterator) or
move to the next node at the same depth. -/
def ngram_trie_iter_next (d : Dict) (it : Iter) : Option Iter :=
  let pos := it.pos + 1
  let cur := curNode it.root it.path
  if pos ≥ cur.successors.length then
    if it.nostop then
      match ngram_trie_next_node d it.root it.path with
      | none => none
      | some p => some { it with path := p, pos := 0 }
    else none
  else some { it with pos := pos }

/-- `ngram_trie_iter_get`: the child at the current position, or none when
the position is past the end. -/
def ngram_trie_iter_get (it : Iter) : Option NTNode :=
  (curNode it.root it.path).successors[it.pos]?

/-- The standard C iteration idiom
`for (itor = ...; itor; itor = ngram_trie_iter_next(itor))` collecting
`ngram_trie_iter_get` at each step (fuel-bounded scaffolding). -/
def iterCollect (d : Dict) : Nat → Option Iter → List NTNode
  | 0, _ => []
  | _ + 1, none => []
  | fuel + 1, some it =>
    match ngram_trie_iter_get it with
    | some nd => nd :: iterCollect d fuel (ngram_trie_iter_next d it)
    | none => iterCollect d fuel (ngram_trie_iter_next d it)

/-- Scenario C: three bigrams under two different histories — `a` has
children `x`, `y` and `b` has child `z`. -/
def d5 : Dict := ⟨["a", "b", "x", "y", "z"]⟩

def x5 : NTNode := .mk 2 (-1) 0 []

def y5 : NTNode := .mk 3 (-2) 0 []

def z5 : NTNode := .mk 4 (-3) 0 []

def a5 : NTNode := .mk 0 (-4) 0 [x5, y5]

def b5 : NTNode := .mk 1 (-5) 0 [z5]

def t5 : Trie :=
  { refcount := 1, dict := d5, gendict := false, lmath := fun _ => -100000,
    shift := 0, zero := -100000, n := 2,
    root := .mk (-1) 0 0 [a5, b5] }

/-- C5: the claim says the order-2 iterator in unbounded mode visits all
three bigrams across both histories.  `ngram_trie_ngrams` sets
`nostop = FALSE` (contradicting its own comment "Create an iterator with
nostop=TRUE"), so the iterator stops after the first history's children:
it visits `x`, `y` only — 2 of the 3 bigrams — while bounded mode over one
history correctly yields exactly that history's children. -/
theorem C5_order_iterator_stops_after_first_history :
    iterCollect t5.dict 10 (ngram_trie_ngrams t5 2) = [x5, y5]
    ∧ (t5.root.successors.map (fun c => c.successors.length)).sum = 3
    ∧ (iterCollect t5.dict 10 (ngram_trie_ngrams t5 2)).length ≠ 3
    ∧ iterCollect t5.dict 10 (some (ngram_trie_successors a5)) = [x5, y5] := by
  have h : iterCollect t5.dict 10 (ngram_trie_ngrams t5 2) = [x5, y5] := rfl
  refine ⟨h, rfl, ?_, rfl⟩
  rw [h]
  norm_num

/-- The surface forms of a node's children, in successor-array order: what
"iterating the node's successors" yields. -/
def surfList (d : Dict) (h : NTNode) : List String :=
  h.successors.map (fun c => d.wordstr c.word)

/-- Successor surface forms in non-decreasing `strcmp` order. -/
def SortedLe (l : List String) : Prop := l.Pairwise (fun a b => strLt b a = false)

/-- Successor surface forms in strictly increasing `strcmp` order. -/
def SortedLt (l : List String) : Prop := l.Pairwise (fun a b => strLt a b = true)

lemma charsLt_asymm : ∀ (a b : List Char), charsLt a b = true → charsLt b a = false := by
  intro a
  induction a with
  | nil =>
    intro b hb
    cases b with
    | nil => simp [charsLt] at hb
    | cons y ys => simp [charsLt]
  | cons x xs ih =>
    intro b hb
    cases b with
    | nil => simp [charsLt] at hb
    | cons y ys =>
      simp only [charsLt] at hb ⊢
      by_cases hxy : x < y
      · simp [hxy, asymm hxy, lt_asymm hxy]
      · by_cases hyx : y < x
        · simp [hxy, hyx] at hb
        · simp only [hxy, hyx, if_false] at hb ⊢
          exact ih ys hb

lemma charsLt_trans :
    ∀ (a b c : List Char), charsLt a b = true → charsLt b c = true → charsLt a c = true := by
  intro a
  induction a with
  | nil =>
    intro b c hab hbc
    cases c with
    | nil =>
      cases b with
      | nil => simp [charsLt] at hab
      | cons y ys => simp [charsLt] at hbc
    | cons z zs => simp [charsLt]
  | cons x xs ih =>
    intro b c hab hbc
    cases b with
    | nil => simp [charsLt] at hab
    | cons y ys =>
      cases c with
      | nil => simp [charsLt] at hbc
      | cons z zs =>
        simp only [charsLt] at hab hbc ⊢
        by_cases hxy : x < y
        · by_cases hyz : y < z
          · simp [lt_trans hxy hyz]
          · by_cases hzy : z < y
            · simp [hyz, hzy] at hbc
            · have hyzeq : y = z := le_antisymm (not_lt.mp hzy) (not_lt.mp hyz)
              subst hyzeq
              simp [hxy]
        · by_cases hyx : y < x
          · simp [hxy, hyx] at hab
          · have hxyeq : x = y := le_antisymm (not_lt.mp hyx) (not_lt.mp hxy)
            subst hxyeq
            simp only [lt_self_iff_false, if_false] at hab
            by_cases hyz : x < z
            · simp [hyz]
            · by_cases hzy : z < x
              · simp [hyz, hzy] at hbc
              · simp only [hyz, hzy, if_false] at hbc ⊢
                exact ih ys zs hab hbc

lemma charsLt_antisymm :
    ∀ (a b : List Char), charsLt a b = false → charsLt b a = false → a = b := by
  intro a
  induction a with
  | nil =>
    intro b hab _
    cases b with
    | nil => rfl
    | cons y ys => simp [charsLt] at hab
  | cons x xs ih =>
    intro b hab hba
    cases b with
    | nil => simp [charsLt] at hba
    | cons y ys =>
      simp only [charsLt] at hab hba
      by_cases hxy : x < y
      · simp [hxy] at hab
      · by_cases hyx : y < x
        · simp [hyx, asymm hyx] at hba
        · have hxyeq : x = y := le_antisymm (not_lt.mp hyx) (not_lt.mp hxy)
          subst hxyeq
          simp only [lt_self_iff_false, if_false] at hab hba
          rw [ih ys hab hba]

lemma strLt_asymm {a b : String} (h : strLt a b = true) : strLt b a = false :=
  charsLt_asymm a.data b.data h

lemma strLt_trans {a b c : String} (hab : strLt a b = true) (hbc : strLt b c = true) :
    strLt a c = true :=
  charsLt_trans a.data b.data c.data hab hbc

lemma strLt_antisymm {a b : String} (hab : strLt a b = false) (hba : strLt b a = false) :
    a = b := by
  have h := charsLt_antisymm a.data b.data hab hba
  cases a with
  | mk da =>
    cases b with
    | mk db =>
      simp only at h
      rw [h]

lemma strLt_total {a b : String} (hab : strLt a b = false) : a = b ∨ strLt b a = true := by
  cases hba : strLt b a with
  | false => exact Or.inl (strLt_antisymm hab hba)
  | true => exact Or.inr rfl

/-- One successor-array mutation: the operations of the claim. -/
inductive SuccOp : Type where
  | add (w : Int)
  | del (w : Int)

/-- Apply one mutation to a parent node (the deletion status is dropped:
a not-found delete leaves the node unchanged, as in the C). -/
def applyOp (d : Dict) (h : NTNode) : SuccOp → NTNode
  | .add w => ngram_trie_add_successor d h w
  | .del w => (ngram_trie_delete_successor d h w).1

/-- Apply a sequence of mutations in order. -/
def applyOps (d : Dict) (h : NTNode) (ops : List SuccOp) : NTNode :=
  ops.foldl (applyOp d) h

/-- The surface forms inserted by the `add` operations of a sequence. -/
def addSurfs (d : Dict) (ops : List SuccOp) : List String :=
  ops.filterMap (fun op => match op with
    | .add w => some (d.wordstr w)
    | .del _ => none)

/-- Plain-string version of the rightmost-insertion-point computation. -/
def insertPosR (key : String) : List String → Nat
  | [] => 0
  | s :: rest => if strLt key s then 0 else insertPosR key rest + 1

/-- Plain-string sorted insertion at the rightmost position. -/
def insertR (key : String) : List String → List String
  | [] => [key]
  | s :: rest => if strLt key s then key :: s :: rest else s :: insertR key rest

lemma bisect_right_eq_insertPosR (d : Dict) (key : String) :
    ∀ l : List NTNode, bisect_right d key l = insertPosR key (l.map (fun c => d.wordstr c.word))
  | [] => rfl
  | c :: rest => by
    simp only [bisect_right, List.map_cons, insertPosR]
    by_cases hc : strLt key (d.wordstr c.word)
    · simp [hc]
    · simp [hc, bisect_right_eq_insertPosR d key rest]

lemma map_insertIdx (f : NTNode → String) (a : NTNode) :
    ∀ (n : Nat) (l : List NTNode),
      (l.insertIdx n a).map f = (l.map f).insertIdx n (f a)
  | 0, l => by simp
  | n + 1, [] => by simp
  | n + 1, c :: rest => by
    simp [List.insertIdx_succ_cons, map_insertIdx f a n rest]

lemma insertIdx_insertPosR (key : String) :
    ∀ l : List String, l.insertIdx (insertPosR key l) key = insertR key l
  | [] => by simp [insertPosR, insertR]
  | s :: rest => by
    simp only [insertPosR, insertR]
    by_cases hs : strLt key s
    · simp [hs]
    · simp [hs, List.insertIdx_succ_cons, insertIdx_insertPosR key rest]

lemma add_successors_eq (d : Dict) (h : NTNode) (w : Int) :
    (ngram_trie_add_successor d h w).successors
      = h.successors.insertIdx (bisect_right d (d.wordstr w) h.successors)
          (NTNode.mk w 0 0 []) := by
  unfold ngram_trie_add_successor
  by_cases hp : bisect_right d (d.wordstr w) h.successors = h.successors.length
  · cases h with
    | mk hw hp' hb hs =>
      simp only [NTNode.successors, NTNode.withSuccessors] at hp ⊢
      simp [hp]
  · cases h with
    | mk hw hp' hb hs =>
      simp only [NTNode.successors, NTNode.withSuccessors] at hp ⊢
      simp [hp]

lemma surfList_add (d : Dict) (h : NTNode) (w : Int) :
    surfList d (ngram_trie_add_successor d h w)
      = insertR (d.wordstr w) (surfList d h) := by
  simp only [surfList, add_successors_eq, map_insertIdx,
    bisect_right_eq_insertPosR]
  rw [show d.wordstr ((NTNode.mk w 0 0 []).word) = d.wordstr w from rfl]
  exact insertIdx_insertPosR _ _

lemma mem_insertR {x key : String} :
    ∀ (l : List String), x ∈ insertR key l → x = key ∨ x ∈ l := by
  intro l
  induction l with
  | nil =>
    intro hx
    simp only [insertR, List.mem_singleton] at hx
    exact Or.inl hx
  | cons s rest ih =>
    intro hx
    cases hks : strLt key s with
    | true =>
      simp only [insertR, hks, if_true, List.mem_cons] at hx
      rcases hx with h1 | h2
      · exact Or.inl h1
      · exact Or.inr (List.mem_cons.mpr h2)
    | false =>
      simp only [insertR, hks, Bool.false_eq_true, if_false, List.mem_cons] at hx
      rcases hx with h1 | h2
      · exact Or.inr (List.mem_cons.mpr (Or.inl h1))
      · rcases ih h2 with h3 | h4
        · exact Or.inl h3
        · exact Or.inr (List.mem_cons_of_mem _ h4)

lemma sortedLe_insertR (key : String) :
    ∀ (l : List String), SortedLe l → SortedLe (insertR key l) := by
  intro l
  induction l with
  | nil => intro _; simp [insertR, SortedLe]
  | cons s rest ih =>
    intro hs
    rw [SortedLe, List.pairwise_cons] at hs
    obtain ⟨hhead, htail⟩ := hs
    cases hks : strLt key s with
    | true =>
      simp only [insertR, hks, if_true, SortedLe, List.pairwise_cons]
      refine ⟨?_, ?_, htail⟩
      · intro b hb
        rcases List.mem_cons.mp hb with h1 | h2
        · subst h1; exact strLt_asymm hks
        · cases hbk : strLt b key with
          | false => rfl
          | true => exact absurd (hhead b h2) (by simp [strLt_trans hbk hks])
      · exact hhead
    | false =>
      simp only [insertR, hks, Bool.false_eq_true, if_false, SortedLe,
        List.pairwise_cons]
      refine ⟨?_, ih htail⟩
      intro b hb
      rcases mem_insertR rest hb with h1 | h2
      · subst h1; exact hks
      · exact hhead b h2

lemma count_insertR (key s : String) :
    ∀ l : List String, (insertR key l).count s = l.count s + (if s = key then 1 else 0)
  | [] => by
    by_cases hsk : s = key <;> simp [insertR, hsk, List.count_cons]
  | c :: rest => by
    cases hkc : strLt key c with
    | true =>
      by_cases hsk : s = key <;>
        simp [insertR, hkc, hsk, List.count_cons]
    | false =>
      simp only [insertR, hkc, Bool.false_eq_true, if_false]
      rw [List.count_cons, List.count_cons, count_insertR key s rest]
      omega

lemma map_eraseIdx (f : NTNode → String) :
    ∀ (l : List NTNode) (i : Nat), (l.eraseIdx i).map f = (l.map f).eraseIdx i
  | [], _ => by simp
  | c :: rest, 0 => by simp
  | c :: rest, i + 1 => by
    simp [List.eraseIdx_cons_succ, map_eraseIdx f rest i]

lemma surfList_delete (d : Dict) (h : NTNode) (w : Int) :
    surfList d (ngram_trie_delete_successor d h w).1 = surfList d h
    ∨ surfList d (ngram_trie_delete_successor d h w).1
        = (surfList d h).eraseIdx (ngram_trie_successor_pos d h w) := by
  unfold ngram_trie_delete_successor
  by_cases hp : ngram_trie_successor_pos d h w ≥ h.successors.length
  · left; simp [hp]
  · right
    simp only [hp, if_false, surfList]
    cases h with
    | mk hw hp' hb hs => simp [NTNode.withSuccessors, NTNode.successors, map_eraseIdx]

lemma sortedLe_eraseIdx {l : List String} (i : Nat) (hs : SortedLe l) :
    SortedLe (l.eraseIdx i) :=
  List.Pairwise.sublist (List.eraseIdx_sublist l i) hs

lemma count_eraseIdx_le (l : List String) (i : Nat) (s : String) :
    (l.eraseIdx i).count s ≤ l.count s :=
  (List.eraseIdx_sublist l i).count_le s

lemma step_sortedLe (d : Dict) (h : NTNode) (op : SuccOp)
    (hs : SortedLe (surfList d h)) : SortedLe (surfList d (applyOp d h op)) := by
  cases op with
  | add w => rw [applyOp, surfList_add]; exact sortedLe_insertR _ _ hs
  | del w =>
    rw [applyOp]
    rcases surfList_delete d h w with he | he <;> rw [he]
    · exact hs
    · exact sortedLe_eraseIdx _ hs

lemma step_count (d : Dict) (h : NTNode) (op : SuccOp) (s : String) :
    (surfList d (applyOp d h op)).count s
      ≤ (surfList d h).count s + (addSurfs d [op]).count s := by
  cases op with
  | add w =>
    rw [applyOp, surfList_add, count_insertR]
    by_cases hsw : s = d.wordstr w <;> simp [addSurfs, List.count_cons, hsw]
  | del w =>
    rw [applyOp]
    rcases surfList_delete d h w with he | he <;> rw [he]
    · simp [addSurfs]
    · simp only [addSurfs, List.filterMap]
      calc ((surfList d h).eraseIdx _).count s ≤ (surfList d h).count s :=
            count_eraseIdx_le _ _ _
        _ ≤ _ := by simp

lemma ops_sortedLe (d : Dict) (ops : List SuccOp) :
    ∀ h : NTNode, SortedLe (surfList d h) → SortedLe (surfList d (applyOps d h ops)) := by
  induction ops with
  | nil => intro h hs; exact hs
  | cons op rest ih =>
    intro h hs
    rw [applyOps, List.foldl_cons]
    exact ih (applyOp d h op) (step_sortedLe d h op hs)

lemma addSurfs_cons (d : Dict) (op : SuccOp) (rest : List SuccOp) (s : String) :
    (addSurfs d (op :: rest)).count s
      = (addSurfs d [op]).count s + (addSurfs d rest).count s := by
  cases op with
  | add w => simp [addSurfs, List.count_cons]; omega
  | del w => simp [addSurfs]

lemma ops_count (d : Dict) (ops : List SuccOp) (s : String) :
    ∀ h : NTNode, (surfList d (applyOps d h ops)).count s
      ≤ (surfList d h).count s + (addSurfs d ops).count s := by
  induction ops with
  | nil => intro h; simp [applyOps, addSurfs]
  | cons op rest ih =>
    intro h
    rw [applyOps, List.foldl_cons, addSurfs_cons]
    calc (surfList d (applyOps d (applyOp d h op) rest)).count s
        ≤ (surfList d (applyOp d h op)).count s + (addSurfs d rest).count s :=
          ih (applyOp d h op)
      _ ≤ (surfList d h).count s + (addSurfs d [op]).count s + (addSurfs d rest).count s := by
          have := step_count d h op s
          omega
      _ = _ := by omega

lemma sortedLe_nodup_sortedLt {l : List String} (hs : SortedLe l) (hn : l.Nodup) :
    SortedLt l := by
  rw [SortedLe] at hs
  rw [List.Nodup] at hn
  rw [SortedLt]
  refine List.Pairwise.imp₂ (fun a b hle hne => ?_) hs hn
  rcases strLt_total hle with h1 | h2
  · exact absurd h1.symm hne
  · exact h2

/-- C9 counterexample: the claim promises strictly increasing surface forms
after any sequence of add/delete operations, but `ngram_trie_add_successor`
never checks for an existing child: adding word `a` twice to a fresh node
yields the successor surface forms `["a", "a"]`, which are not strictly
increasing. -/
theorem C9_counterexample_duplicate_add :
    surfList d2 (applyOps d2 ngram_trie_node_alloc [.add 0, .add 0]) = ["a", "a"]
    ∧ ¬ SortedLt (surfList d2 (applyOps d2 ngram_trie_node_alloc [.add 0, .add 0])) := by
  constructor
  · rfl
  · rw [show surfList d2 (applyOps d2 ngram_trie_node_alloc [.add 0, .add 0])
        = ["a", "a"] from rfl]
    rw [SortedLt]
    intro hp
    rw [List.pairwise_cons] at hp
    have := hp.1 "a" (by simp)
    simp [strLt, charsLt] at this

/-- C9 (amended): after any sequence of `ngram_trie_add_successor` /
`ngram_trie_delete_successor` operations the successor surface forms are in
non-decreasing `strcmp` order (starting from any node already in order, in
particular a fresh empty node); they are strictly increasing provided the
node starts empty and no two `add` operations insert words with the same
surface form.  (Strictness fails in general — see the counterexample:
duplicate adds are accepted and produce equal neighbours.) -/
theorem C9_successors_sorted (d : Dict) (ops : List SuccOp) (h : NTNode)
    (hs : SortedLe (surfList d h)) :
    SortedLe (surfList d (applyOps d h ops))
    ∧ (surfList d h = [] → (addSurfs d ops).Nodup →
        SortedLt (surfList d (applyOps d h ops))) := by
  refine ⟨ops_sortedLe d ops h hs, fun hemp hnd => ?_⟩
  have hcount : ∀ s, (surfList d (applyOps d h ops)).count s ≤ 1 := by
    intro s
    have h1 := ops_count d ops s h
    rw [hemp] at h1
    have h2 : (addSurfs d ops).count s ≤ 1 := List.nodup_iff_count_le_one.mp hnd s
    simp only [List.count_nil, Nat.zero_add] at h1
    exact le_trans h1 h2
  exact sortedLe_nodup_sortedLt (ops_sortedLe d ops h hs)
    (List.nodup_iff_count_le_one.mpr hcount)

/-- C9 witness: the amended claim instantiated with distinct adds and a
delete on a fresh node. -/
theorem C9_witness :
    SortedLe (surfList d2 (applyOps d2 ngram_trie_node_alloc [.add 1, .add 0, .del 1]))
    ∧ SortedLt (surfList d2 (applyOps d2 ngram_trie_node_alloc [.add 1, .add 0, .del 1])) :=
  ⟨(C9_successors_sorted d2 [.add 1, .add 0, .del 1] ngram_trie_node_alloc
      (by rw [SortedLe]; simp [surfList, ngram_trie_node_alloc, NTNode.successors])).1,
   (C9_successors_sorted d2 [.add 1, .add 0, .del 1] ngram_trie_node_alloc
      (by rw [SortedLe]; simp [surfList, ngram_trie_node_alloc, NTNode.successors])).2
     rfl (by decide)⟩

/-- `string_trim(buf, STRING_BOTH)`: strip leading and trailing whitespace. -/
def trimChars (cs : List Char) : List Char :=
  ((cs.dropWhile Char.isWhitespace).reverse.dropWhile Char.isWhitespace).reverse

def string_trim (s : String) : String := String.mk (trimChars s.data)

/-- `str2words`: split a line into whitespace-separated fields. -/
def wordsAux (cur : List Char) : List Char → List String
  | [] => if cur = [] then [] else [String.mk cur.reverse]
  | c :: rest =>
    if c.isWhitespace then
      if cur = [] then wordsAux [] rest
      else String.mk cur.reverse :: wordsAux [] rest
    else wordsAux (c :: cur) rest

def str2words (s : String) : List String := wordsAux [] s.data

/-- Digit-string value (the digit runs of `atoi` / `atof_c`). -/
def digitsVal (cs : List Char) : Nat :=
  cs.foldl (fun a c => a * 10 + (c.toNat - 48)) 0

/-- `atof_c` on the decimal fragment the ARPA lines use (optional sign,
integer part, optional fraction; the exponent forms do not occur in the
modelled inputs). -/
def atof_c (s : String) : Rat :=
  let cs := s.data
  let neg := cs.head? = some '-'
  let cs1 := if neg then cs.tail else cs
  let ip := cs1.takeWhile Char.isDigit
  let restc := cs1.dropWhile Char.isDigit
  let fp :=
    if restc.head? = some '.' then restc.tail.takeWhile Char.isDigit else []
  let v : Rat := (digitsVal ip : Rat) + (digitsVal fp : Rat) / ((10 : Rat) ^ fp.length)
  if neg then -v else v

/-- Modify the node at the end of an index path (the mutation through the
C parent pointer). -/
def modifyNth (f : NTNode → NTNode) : Nat → List NTNode → List NTNode
  | _, [] => []
  | 0, c :: rest => f c :: rest
  | i + 1, c :: rest => c :: modifyNth f i rest

def NTNode.modifyAt : NTNode → List Nat → (NTNode → NTNode) → NTNode
  | node, [], f => f node
  | node, i :: rest, f =>
    node.withSuccessors (modifyNth (fun c => c.modifyAt rest f) i node.successors)

/-- The nodes visited when descending an index path (excluding the root). -/
def pathNodes : NTNode → List Nat → List NTNode
  | _, [] => []
  | node, i :: rest =>
    match node.successors[i]? with
    | none => []
    | some c => c :: pathNodes c rest

/-- The words along a path in node-to-root order (the sequence the C walk
`h->word, h->history->word, …` reads). -/
def pathWordsUp (root : NTNode) (p : List Nat) : List Int :=
  ((pathNodes root p).map NTNode.word).reverse

/-- `ngram_trie_successor` returning the bisect position instead of the
node (for path bookkeeping). -/
def successorIdx (d : Dict) (h : NTNode) (w : Int) : Option Nat :=
  let pos := ngram_trie_successor_pos d h w
  if pos ≥ h.successors.length then none else some pos

/-- Path-returning mirror of the `ngram_trie_ngram_v` descent loop (like
`descendSame`, the loop's only exit is `return NULL`). -/
def descendSamePath (d : Dict) (node : NTNode) (wid : Int) : Option (List Nat) :=
  match h : ngram_trie_successor d node wid with
  | none => none
  | some c => descendSamePath d c wid
termination_by sizeOf node
decreasing_by
  exact sizeOf_lt_of_mem_successors (mem_of_successor_eq_some h)

/-- Path-returning mirror of `ngram_trie_ngram_v` (used by the loader's
history refresh, which needs the node's position to attach new children). -/
def ngram_v_path (t : Trie) (w : Int) (hist : List Int) (n_hist : Int) :
    Option (List Nat) :=
  let nh := if n_hist > t.n - 1 then t.n - 1 else n_hist
  if nh > 0 then descendSamePath t.dict t.root (hist.getD (nh.toNat - 1) 0)
  else
    match successorIdx t.dict t.root w with
    | none => none
    | some p => some [p]

/-- The cached-history comparison loop of `add_ngram_line`:
`for (i = 1; h != NULL && i < n; ++i) { if (h->word != wids[i]) break;
h = h->history; }`, returning the final `i`.  The chain argument lists the
words read walking up from the cached node (`-1` for the root, end of list
for the terminating `NULL`); `hw` holds `wids[1..n-1]`. -/
def matchUp (hw : List Int) (n : Nat) : List Int → Nat → Nat
  | [], i => i
  | w :: rest, i =>
    if i < n then
      if w = hw.getD (i - 1) 0 then matchUp hw n rest (i + 1) else i
    else i

/-- `ngram_trie_add_successor` directly followed by the loader's
`node->log_prob = …; node->log_bowt = …` assignments on the new child
(the insertion position depends only on the word). -/
def add_successor_entry (d : Dict) (h : NTNode) (w qp qb : Int) : NTNode :=
  let ng : NTNode := .mk w qp qb []
  let pos := bisect_right d (d.wordstr w) h.successors
  if pos = h.successors.length then h.withSuccessors (h.successors ++ [ng])
  else h.withSuccessors (h.successors.insertIdx pos ng)

/-- `add_ngram_line`: parse one N-gram record.  Returns `none` exactly when
the C returns `NULL` — too few fields, unknown head word with a fixed
dictionary, unknown history word, or unknown history path — and otherwise
the updated trie (possibly with a grown dictionary) together with the new
cached-history path.  `lastHist` is the `*last_history` in/out parameter as
a root-index path (`[]` is the root). -/
def add_ngram_line (t : Trie) (buf : String) (n : Nat)
    (lastHist : Option (List Nat)) : Option (Trie × List Nat) :=
  let wptr := str2words buf
  let nwords := wptr.length
  if nwords < n + 1 then none
  else
    let prob : Rat := atof_c (wptr.getD 0 "")
    let bowt : Rat := if nwords = n + 2 then atof_c (wptr.getD (n + 1) "") else 0
    let wid0 := t.dict.wordid (wptr.getD n "")
    let resolved : Option (Trie × Int) :=
      if wid0 = BAD_S3WID then
        if t.gendict then
          let da := t.dict.add_word (wptr.getD n "")
          some ({ t with dict := da.1 }, da.2)
        else none
      else some (t, wid0)
    match resolved with
    | none => none
    | some (t1, w0) =>
      let hwids : List Int :=
        (List.range (n - 1)).map (fun j => t1.dict.wordid (wptr.getD (n - 1 - j) ""))
      if hwids.any (fun x => x = BAD_S3WID) then none
      else
        let histPath : Option (List Nat) :=
          if n = 1 then some (lastHist.getD [])
          else
            let chain : List Int :=
              match lastHist with
              | none => []
              | some p => pathWordsUp t1.root p ++ [-1]
            let i := matchUp hwids n chain 1
            if i < n then ngram_v_path t1 (hwids.getD 0 0) (hwids.drop 1) ((n : Int) - 2)
            else lastHist
        match histPath with
        | none => none
        | some p =>
          let qp := asr (t1.lmath prob) t1.shift
          let qb := asr (t1.lmath bowt) t1.shift
          some ({ t1 with
                  root := t1.root.modifyAt p
                    (fun h => add_successor_entry t1.dict h w0 qp qb) }, p)

/-- `read_ngrams`: process the lines of one N-gram section.  Returns the
status the C function returns — `0` on `\end\`, a larger order `nn` on a
`\nn-grams:` marker with `nn > n`, `-1` on a malformed marker, on exhausted
input, or whenever `add_ngram_line` returns `NULL` — paired with the trie
state reached. -/
def read_ngrams (t : Trie) (lines : List String) (n : Nat) : Int × Trie :=
  go t lines (if n = 1 then some [] else none)
where
  go (t : Trie) : List String → Option (List Nat) → Int × Trie
    | [], _ => (-1, t)
    | li :: rest, lastHist =>
      let buf := string_trim li
      if buf.data = [] then go t rest lastHist
      else if buf = "\\end\\" then (0, t)
      else if buf.data.head? = some '\\' then
        match buf.data.tail with
        | [] => (-1, t)
        | c :: _ =>
          if ¬ c.isDigit then (-1, t)
          else
            let digits := buf.data.tail.takeWhile Char.isDigit
            let markerRest := buf.data.tail.dropWhile Char.isDigit
            if markerRest ≠ "-grams:".data then (-1, t)
            else
              let nn := digitsVal digits
              if nn > n then ((nn : Int), t)
              else go t rest lastHist
      else
        match add_ngram_line t buf n lastHist with
        | none => (-1, t)
        | some tp => go tp.1 rest (some tp.2)

/-- The loader scenario: a fixed (non-growable) dictionary containing only
`a`; the unigram section contains a line for the unknown word `b` followed
by a valid line for `a`. -/
def t3 : Trie :=
  { refcount := 1, dict := ⟨["a"]⟩, gendict := false, lmath := fun _ => -100000,
    shift := 0, zero := -100000, n := 1, root := .mk (-1) 0 0 [] }

/-- C3: the claim says a line whose head word is unknown (with a fixed
dictionary) is skipped with a warning and loading continues.  In the code,
`add_ngram_line` signals both fatal errors and skip-worthy lines by the
same `NULL`, and `read_ngrams` returns `-1` on any `NULL`: the unknown
unigram `b` aborts the whole load (status -1, the following valid `a` line
never processed), while the same input without the offending line loads to
a successful `\end\` (status 0). -/
theorem C3_warning_line_aborts_load :
    (read_ngrams t3 ["-2.0 b", "-1.5 a", "\\end\\"] 1).1 = -1
    ∧ (read_ngrams t3 ["-2.0 b", "-1.5 a", "\\end\\"] 1).2.root.successors = []
    ∧ (read_ngrams t3 ["-1.5 a", "\\end\\"] 1).1 = 0 := by
  refine ⟨rfl, rfl, rfl⟩

end NgramTrie
